import Mathlib

/-!
Shallow embedding of `pygamma/alignement.py`: unitary alignements and their
disorder, the set-partition check of `Alignement.__init__`, and the candidate
generation / pruning / exact-cover optimization of `BestAlignement`.

Real-valued scores are embedded as rationals.  A slot of an n-tuple is the
`[annotator, segment-or-None]` pair of the Python code; the gap (`None`) is
`Option.none`.  The combined dissimilarity is an external collaborator: the
code evaluates it on the two units together with their payloads
`continuum[annotator][unit]`, so for a fixed continuum its value is a function
of the two (annotator, unit) pairs, which is how it is embedded here.
-/

namespace PyGamma

/-- A slot of an n-tuple: the owning annotator together with either one of its
units (segments), or the gap marker `none` (Python `None`). -/
abbrev Slot : Type := ℕ × Option ℕ

/-- The n-tuple of a `UnitaryAlignement`: one slot per annotator. -/
abbrev Grouping : Type := List Slot

/-- The continuum (timeline): per annotator (in stable iteration order), its
ordered list of units. -/
abbrev Continuum : Type := List (ℕ × List ℕ)

/-- The combined dissimilarity collaborator: the gap cost `DELTA_EMPTY` and the
distance between two (annotator, unit) pairs (payload lookup absorbed, see
module comment). -/
structure Dissim where
  delta_empty : ℚ
  dis : ℕ × ℕ → ℕ × ℕ → ℚ

/-- Cost of one couple of slots in `UnitaryAlignement.disorder`: `DELTA_EMPTY`
as soon as one of the two slots is a gap, the dissimilarity value otherwise. -/
def cost (d : Dissim) (s t : Slot) : ℚ :=
  match s.2, t.2 with
  | some u, some v => d.dis (s.1, u) (t.1, v)
  | _, _ => d.delta_empty

/-- The accumulated sum of `UnitaryAlignement.disorder`: the double loop
`for idx, (annotator_u, unit_u) in enumerate(n_tuple): for ... in
n_tuple[idx+1:]`. -/
def pairSum (d : Dissim) : Grouping → ℚ
  | [] => 0
  | s :: rest => (rest.map (cost d s)).sum + pairSum d rest

/-- `binom(len(n_tuple), 2)`, the number of couples the loop visits (the code
asserts `num_couples == binom(len(self.n_tuple), 2)`). -/
def numCouples (t : Grouping) : ℕ :=
  Nat.choose t.length 2

/-- `UnitaryAlignement.disorder`: the accumulated couple costs divided by
`binom(len(n_tuple), 2)`. -/
def disorder (d : Dissim) (t : Grouping) : ℚ :=
  pairSum d t / (numCouples t : ℚ)

/-- `found` of the set-partition test: in how many of the given unitary
alignements the pair `[annotator, unit]` occurs (`if [annotator, unit] in
unitary_alignement.n_tuple`). -/
def refCount (gs : List Grouping) (a u : ℕ) : ℕ :=
  gs.countP (fun g => decide ((a, some u) ∈ g))

/-- The two ways `SetPartitionError` is raised in `Alignement.__init__`. -/
inductive SetPartitionErr where
  | missing (a u : ℕ)
  | duplicate (a u : ℕ)
deriving DecidableEq, Repr

/-- The inner loop of the set-partition test, over one annotator's units in
order: first failing unit raises. -/
def checkUnits (gs : List Grouping) (a : ℕ) : List ℕ → Except SetPartitionErr Unit
  | [] => .ok ⟨⟩
  | u :: rest =>
    if refCount gs a u = 0 then .error (.missing a u)
    else if 1 < refCount gs a u then .error (.duplicate a u)
    else checkUnits gs a rest

/-- The set-partition test of `Alignement.__init__`: iterate the annotators in
continuum order, each one's units in order, and raise `SetPartitionError` at
the first pair found zero times or more than once. -/
def partitionCheck (c : Continuum) (gs : List Grouping) : Except SetPartitionErr Unit :=
  match c with
  | [] => .ok ⟨⟩
  | (a, us) :: rest =>
    match checkUnits gs a us with
    | .ok _ => partitionCheck rest gs
    | .error e => .error e

/-- `Alignement.disorder`: the sum of the unitary disorders divided by
`num_alignements`.  The Python division `float / int` raises
`ZeroDivisionError` when `num_alignements == 0`, embedded as `none`. -/
def alignementDisorder (d : Dissim) (gs : List Grouping) : Option ℚ :=
  if gs.length = 0 then none
  else some ((gs.map (disorder d)).sum / (gs.length : ℚ))

/-- Sum of the unitary disorders of a selection (the ILP objective `d.T * x`
evaluated on the selected alignements). -/
def sumDisorder (d : Dissim) (gs : List Grouping) : ℚ :=
  (gs.map (disorder d)).sum

/-- `[[annotator, el] for el in list(units) + [None]]`: the slot domain of one
annotator. -/
def slotDomain (p : ℕ × List ℕ) : List Slot :=
  p.2.map (fun u => (p.1, some u)) ++ [(p.1, none)]

/-- One step of the Cartesian product: prepend every element of `xs` to every
tuple of `ts`, first coordinate varying slowest as in `itertools.product`. -/
def prodCons (xs : List Slot) (ts : List Grouping) : List Grouping :=
  match xs with
  | [] => []
  | x :: rest => ts.map (fun t => x :: t) ++ prodCons rest ts

/-- `list(product(*set_of_possible_segments))`. -/
def listProd : List (List Slot) → List Grouping
  | [] => [[]]
  | xs :: rest => prodCons xs (listProd rest)

/-- `set_of_possible_tuples` of `get_unitary_alignements_best`: the Cartesian
product of the annotators' slot domains. -/
def candidates (c : Continuum) : List Grouping :=
  listProd (c.map slotDomain)

/-- `set_of_possible_unitary_alignements`: candidates surviving the pruning
`disorder < len(continuum) * DELTA_EMPTY` (section 5.1.1 property). -/
def prunedCandidates (c : Continuum) (d : Dissim) : List Grouping :=
  (candidates c).filter (fun t => decide (disorder d t < (c.length : ℚ) * d.delta_empty))

/-- The exact-cover constraint `A @ x == 1` of the ILP: every (annotator, unit)
pair of the continuum is referenced by exactly one selected alignement. -/
def coverB (c : Continuum) (gs : List Grouping) : Bool :=
  c.all (fun p => p.2.all (fun u => refCount gs p.1 u == 1))

/-- All 0/1 selections out of a list of candidates (the value space of the
boolean ILP variable `x`): every sublist, each candidate kept or dropped. -/
def selections {α : Type} : List α → List (List α)
  | [] => [[]]
  | x :: rest => (selections rest).map (fun t => x :: t) ++ selections rest

/-- The feasible points of the boolean ILP: selections of the pruned
candidates satisfying the exact-cover constraint. -/
def feasibleCovers (c : Continuum) (d : Dissim) : List (List Grouping) :=
  (selections (prunedCandidates c d)).filter (coverB c)

/-- Pick an element minimizing `f`, `none` on the empty list: the contract of
the external boolean-ILP solve (`prob.solve()` followed by reading `x.value`),
which returns a feasible selection of minimal objective. -/
def pickMin {α : Type} (f : α → ℚ) : List α → Option α
  | [] => none
  | x :: xs => some (xs.foldl (fun b y => if f y < f b then y else b) x)

/-- `get_unitary_alignements_best`: generate, prune, and solve the boolean ILP
minimizing the summed disorder `d.T * x` under the exact-cover constraint.
The external solver is modelled by its contract (spec section 4.5): it returns
a feasible selection of minimal objective, and nothing when the program is
infeasible. -/
def bestSelection? (c : Continuum) (d : Dissim) : Option (List Grouping) :=
  pickMin (sumDisorder d) (feasibleCovers c d)

/-- `BestAlignement.disorder`: mean unitary disorder of the selection. -/
def bestDisorder? (c : Continuum) (d : Dissim) : Option ℚ :=
  (bestSelection? c d).map (fun sel => sumDisorder d sel / (sel.length : ℚ))

/-- `continuum.num_units`: total unit count across annotators. -/
def numUnits (c : Continuum) : ℕ :=
  (c.map (fun p => p.2.length)).sum

/-!  Basic facts about couple costs and `pairSum`. -/

lemma cost_gap_left (d : Dissim) (s t : Slot) (h : s.2 = none) :
    cost d s t = d.delta_empty := by
  unfold cost
  rw [h]

lemma cost_gap_right (d : Dissim) (s t : Slot) (h : t.2 = none) :
    cost d s t = d.delta_empty := by
  unfold cost
  rw [h]
  rcases s.2 with _ | u <;> rfl

lemma cost_nonneg (d : Dissim) (hΔ : 0 ≤ d.delta_empty)
    (hdis : ∀ p q, 0 ≤ d.dis p q) (s t : Slot) : 0 ≤ cost d s t := by
  unfold cost
  rcases s.2 with _ | u <;> rcases t.2 with _ | v
  all_goals first
    | exact hΔ
    | exact hdis _ _

lemma sum_map_const_rat {α : Type} (l : List α) (q : ℚ) :
    (l.map (fun _ => q)).sum = (l.length : ℚ) * q := by
  induction l with
  | nil => simp
  | cons x rest ih =>
    simp only [List.map_cons, List.sum_cons, ih, List.length_cons]
    push_cast
    ring

lemma pairSum_nonneg (d : Dissim) (hΔ : 0 ≤ d.delta_empty)
    (hdis : ∀ p q, 0 ≤ d.dis p q) (t : Grouping) : 0 ≤ pairSum d t := by
  induction t with
  | nil => simp [pairSum]
  | cons s rest ih =>
    have h1 : 0 ≤ (rest.map (cost d s)).sum :=
      List.sum_nonneg (by
        intro x hx
        obtain ⟨y, _, rfl⟩ := List.mem_map.1 hx
        exact cost_nonneg d hΔ hdis s y)
    simpa [pairSum] using add_nonneg h1 ih

lemma disorder_nonneg (d : Dissim) (hΔ : 0 ≤ d.delta_empty)
    (hdis : ∀ p q, 0 ≤ d.dis p q) (t : Grouping) : 0 ≤ disorder d t :=
  div_nonneg (pairSum_nonneg d hΔ hdis t) (Nat.cast_nonneg _)

lemma sumDisorder_nonneg (d : Dissim) (hΔ : 0 ≤ d.delta_empty)
    (hdis : ∀ p q, 0 ≤ d.dis p q) (gs : List Grouping) : 0 ≤ sumDisorder d gs :=
  List.sum_nonneg (by
    intro x hx
    obtain ⟨g, _, rfl⟩ := List.mem_map.1 hx
    exact disorder_nonneg d hΔ hdis g)

/-!  The spec's indexed formulation of the disorder of a grouping (C2). -/

/-- Default slot for out-of-range indexed access (never reached in range). -/
def gapSlot : Slot := (0, none)

/-- The spec's words for the accumulated sum: over every unordered pair of
distinct slot indices i < j, the couple cost of slots i and j. -/
def specPairSum (d : Dissim) (t : Grouping) : ℚ :=
  ∑ j in Finset.range t.length, ∑ i in Finset.range j,
    cost d (t.getD i gapSlot) (t.getD j gapSlot)

/-- The spec's disorder of a grouping: the pair sum divided by C(n, 2). -/
def specDisorder (d : Dissim) (t : Grouping) : ℚ :=
  specPairSum d t / (Nat.choose t.length 2 : ℚ)

lemma sum_range_getD {α : Type} (h : α → ℚ) (dflt : α) (r : List α) :
    ∑ j in Finset.range r.length, h (r.getD j dflt) = (r.map h).sum := by
  induction r with
  | nil => simp
  | cons x rest ih =>
    rw [List.length_cons, Finset.sum_range_succ' (fun j => h ((x :: rest).getD j dflt))]
    simp only [List.getD_cons_succ, List.getD_cons_zero, ih, List.map_cons, List.sum_cons]
    ring

lemma specPairSum_eq_pairSum (d : Dissim) (t : Grouping) :
    specPairSum d t = pairSum d t := by
  induction t with
  | nil => simp [specPairSum, pairSum]
  | cons s rest ih =>
    unfold specPairSum at ih ⊢
    rw [List.length_cons,
      Finset.sum_range_succ' (fun j => ∑ i in Finset.range j,
        cost d ((s :: rest).getD i gapSlot) ((s :: rest).getD j gapSlot))]
    simp only [List.getD_cons_succ, List.getD_cons_zero, Finset.range_zero,
      Finset.sum_empty, add_zero]
    have hrow : ∀ j, (∑ i in Finset.range (j + 1),
        cost d ((s :: rest).getD i gapSlot) (rest.getD j gapSlot)) =
        (∑ i in Finset.range j, cost d (rest.getD i gapSlot) (rest.getD j gapSlot)) +
          cost d s (rest.getD j gapSlot) := by
      intro j
      rw [Finset.sum_range_succ' (fun i =>
        cost d ((s :: rest).getD i gapSlot) (rest.getD j gapSlot))]
      simp only [List.getD_cons_succ, List.getD_cons_zero]
    simp only [hrow, Finset.sum_add_distrib, ih,
      sum_range_getD (fun x => cost d s x) gapSlot rest]
    rw [pairSum]
    ring

/-- C2: for a grouping over n >= 2 annotators, the code's disorder is the sum
over the C(n,2) unordered pairs of distinct slots of the couple cost (gap cost
when a gap is involved, dissimilarity value otherwise), divided by C(n,2). -/
theorem c2_disorder_is_mean_pairwise_cost (d : Dissim) (t : Grouping)
    (hn : 2 ≤ t.length) : disorder d t = specDisorder d t := by
  unfold disorder specDisorder numCouples
  rw [specPairSum_eq_pairSum]

/-!  Groupings with at most one filled slot cost exactly `DELTA_EMPTY` per
couple (C6, and the singleton replacements of the optimality proof). -/

lemma pairSum_of_few_some (d : Dissim) (t : Grouping)
    (h : t.countP (fun s => s.2.isSome) ≤ 1) :
    pairSum d t = (Nat.choose t.length 2 : ℚ) * d.delta_empty := by
  induction t with
  | nil => simp [pairSum]
  | cons s rest ih =>
    rw [List.countP_cons] at h
    have hchoose : ((rest.length + 1).choose 2 : ℚ) =
        (rest.length.choose 2 : ℚ) + (rest.length : ℚ) := by
      rw [Nat.choose_succ_succ rest.length 1, Nat.choose_one_right]
      push_cast
      ring
    rcases hs : s.2 with _ | u
    · have hrow : (rest.map (cost d s)).sum = (rest.length : ℚ) * d.delta_empty := by
        rw [List.map_congr_left (fun x _ => cost_gap_left d s x hs)]
        exact sum_map_const_rat rest d.delta_empty
      have hrest : rest.countP (fun s => s.2.isSome) ≤ 1 := by
        simp only [hs] at h
        simpa using h
      rw [pairSum, hrow, ih hrest, List.length_cons, hchoose]
      ring
    · have hzero : rest.countP (fun s => s.2.isSome) = 0 := by
        simp only [hs, Option.isSome_some, if_pos] at h
        omega
      have hallgap : ∀ x ∈ rest, x.2 = none := by
        intro x hx
        have hns := List.countP_eq_zero.1 hzero x hx
        exact Option.not_isSome_iff_eq_none.1 (by simpa using hns)
      have hrow : (rest.map (cost d s)).sum = (rest.length : ℚ) * d.delta_empty := by
        rw [List.map_congr_left (fun x hx => cost_gap_right d s x (hallgap x hx))]
        exact sum_map_const_rat rest d.delta_empty
      rw [pairSum, hrow, ih (le_trans (le_of_eq hzero) (by omega)), List.length_cons, hchoose]
      ring

lemma disorder_of_few_some (d : Dissim) (t : Grouping)
    (h : t.countP (fun s => s.2.isSome) ≤ 1) (hn : 2 ≤ t.length) :
    disorder d t = d.delta_empty := by
  have hpos : 0 < t.length.choose 2 := Nat.choose_pos hn
  have hne : (t.length.choose 2 : ℚ) ≠ 0 := by
    exact_mod_cast hpos.ne'
  rw [disorder, numCouples, pairSum_of_few_some d t h, mul_comm]
  exact mul_div_cancel_right₀ _ hne

/-- C6: a grouping whose every slot is a gap, over n >= 2 annotators, has
disorder exactly `DELTA_EMPTY` (the sum is C(n,2) * DELTA_EMPTY, divided by
C(n,2)). -/
theorem c6_all_gap_disorder (d : Dissim) (t : Grouping)
    (hgap : ∀ s ∈ t, s.2 = none) (hn : 2 ≤ t.length) :
    disorder d t = d.delta_empty := by
  refine disorder_of_few_some d t ?_ hn
  have : t.countP (fun s => s.2.isSome) = 0 :=
    List.countP_eq_zero.2 (by
      intro s hs
      simp [hgap s hs])
  omega

/-!  Permutation invariance of the disorder of a grouping (C7). -/

lemma cost_comm (d : Dissim) (hsym : ∀ p q, d.dis p q = d.dis q p) (s t : Slot) :
    cost d s t = cost d t s := by
  obtain ⟨a, os⟩ := s
  obtain ⟨b, ot⟩ := t
  rcases os with _ | u <;> rcases ot with _ | v <;> simp [cost, hsym]

lemma sum_map_add {α : Type} (l : List α) (f g : α → ℚ) :
    (l.map (fun x => f x + g x)).sum = (l.map f).sum + (l.map g).sum := by
  induction l with
  | nil => simp
  | cons x rest ih =>
    simp only [List.map_cons, List.sum_cons, ih]
    ring

/-- Row of the full cost matrix of a grouping: total cost of `s` against
every slot of `t`. -/
def rowSum (d : Dissim) (t : Grouping) (s : Slot) : ℚ :=
  (t.map (cost d s)).sum

/-- Sum of all ordered couple costs of a grouping, diagonal included. -/
def fullSum (d : Dissim) (t : Grouping) : ℚ :=
  (t.map (rowSum d t)).sum

/-- Sum of the diagonal couple costs of a grouping. -/
def diagSum (d : Dissim) (t : Grouping) : ℚ :=
  (t.map (fun s => cost d s s)).sum

lemma fullSum_eq_two_pairSum (d : Dissim) (hsym : ∀ p q, d.dis p q = d.dis q p)
    (t : Grouping) : fullSum d t = 2 * pairSum d t + diagSum d t := by
  induction t with
  | nil => simp [fullSum, diagSum, pairSum]
  | cons s rest ih =>
    have hrow : ∀ x : Slot, rowSum d (s :: rest) x = cost d x s + rowSum d rest x := by
      intro x
      simp [rowSum]
    have hsplit : (rest.map (rowSum d (s :: rest))).sum =
        (rest.map (cost d s)).sum + (rest.map (rowSum d rest)).sum := by
      calc (rest.map (rowSum d (s :: rest))).sum
          = (rest.map (fun x => cost d x s + rowSum d rest x)).sum := by
            rw [List.map_congr_left (fun x _ => hrow x)]
        _ = (rest.map (fun x => cost d x s)).sum + (rest.map (rowSum d rest)).sum :=
            sum_map_add rest _ _
        _ = (rest.map (cost d s)).sum + (rest.map (rowSum d rest)).sum := by
            rw [List.map_congr_left (fun x _ => cost_comm d hsym x s)]
    have hfull : fullSum d (s :: rest) =
        (cost d s s + rowSum d rest s) +
          ((rest.map (cost d s)).sum + fullSum d rest) := by
      simp only [fullSum, List.map_cons, List.sum_cons, hsplit, hrow s]
    have hrow' : rowSum d rest s = (rest.map (cost d s)).sum := rfl
    rw [hfull, hrow', ih, pairSum]
    simp only [diagSum, List.map_cons, List.sum_cons]
    ring

lemma pairSum_perm (d : Dissim) (hsym : ∀ p q, d.dis p q = d.dis q p)
    {t t' : Grouping} (h : t.Perm t') : pairSum d t = pairSum d t' := by
  have hrow : ∀ s : Slot, rowSum d t s = rowSum d t' s := by
    intro s
    exact (h.map (cost d s)).sum_eq
  have hfull : fullSum d t = fullSum d t' := by
    calc fullSum d t = (t.map (rowSum d t')).sum := by
          rw [fullSum, List.map_congr_left (fun s _ => hrow s)]
      _ = fullSum d t' := (h.map (rowSum d t')).sum_eq
  have hdiag : diagSum d t = diagSum d t' := (h.map (fun s => cost d s s)).sum_eq
  have h2 : 2 * pairSum d t + diagSum d t = 2 * pairSum d t' + diagSum d t' := by
    rw [← fullSum_eq_two_pairSum d hsym, ← fullSum_eq_two_pairSum d hsym, hfull]
  linarith

/-- C7: for every grouping over n >= 2 annotators, reordering its slots leaves
the disorder unchanged, provided the dissimilarity is symmetric. -/
theorem c7_disorder_perm_invariant (d : Dissim) (t t' : Grouping)
    (hperm : t.Perm t') (hsym : ∀ p q, d.dis p q = d.dis q p)
    (hn : 2 ≤ t.length) : disorder d t = disorder d t' := by
  rw [disorder, disorder, numCouples, numCouples, hperm.length_eq,
    pairSum_perm d hsym hperm]

/-!  Characterization of the set-partition test (C3, C4, C10). -/

/-- Every (annotator, unit) pair of the continuum is referenced by exactly one
grouping of the collection. -/
def coversExactly (c : Continuum) (gs : List Grouping) : Prop :=
  ∀ p ∈ c, ∀ u ∈ p.2, refCount gs p.1 u = 1

instance (c : Continuum) (gs : List Grouping) : Decidable (coversExactly c gs) := by
  unfold coversExactly
  infer_instance

lemma checkUnits_ok_iff (gs : List Grouping) (a : ℕ) (us : List ℕ) :
    checkUnits gs a us = .ok ⟨⟩ ↔ ∀ u ∈ us, refCount gs a u = 1 := by
  induction us with
  | nil => simp [checkUnits]
  | cons u rest ih =>
    rw [checkUnits]
    by_cases h0 : refCount gs a u = 0
    · simp only [h0, if_pos rfl]
      simp only [List.mem_cons]
      constructor
      · intro h
        cases h
      · intro h
        have := h u (Or.inl rfl)
        omega
    · rw [if_neg h0]
      by_cases h2 : 1 < refCount gs a u
      · rw [if_pos h2]
        simp only [List.mem_cons]
        constructor
        · intro h
          cases h
        · intro h
          have := h u (Or.inl rfl)
          omega
      · rw [if_neg h2, ih]
        simp only [List.mem_cons]
        constructor
        · intro h v hv
          rcases hv with rfl | hv
          · omega
          · exact h v hv
        · intro h v hv
          exact h v (Or.inr hv)

lemma checkUnits_error (gs : List Grouping) (a : ℕ) (us : List ℕ)
    (e : SetPartitionErr) (h : checkUnits gs a us = .error e) :
    (∃ u ∈ us, e = .missing a u ∧ refCount gs a u = 0) ∨
      (∃ u ∈ us, e = .duplicate a u ∧ 1 < refCount gs a u) := by
  induction us with
  | nil => simp [checkUnits] at h
  | cons u rest ih =>
    rw [checkUnits] at h
    by_cases h0 : refCount gs a u = 0
    · rw [if_pos h0] at h
      left
      exact ⟨u, List.mem_cons_self u rest, by injection h with h; rw [← h], h0⟩
    · rw [if_neg h0] at h
      by_cases h2 : 1 < refCount gs a u
      · rw [if_pos h2] at h
        right
        exact ⟨u, List.mem_cons_self u rest, by injection h with h; rw [← h], h2⟩
      · rw [if_neg h2] at h
        rcases ih h with ⟨v, hv, he, hc⟩ | ⟨v, hv, he, hc⟩
        · exact Or.inl ⟨v, List.mem_cons_of_mem u hv, he, hc⟩
        · exact Or.inr ⟨v, List.mem_cons_of_mem u hv, he, hc⟩

lemma partitionCheck_ok_iff (c : Continuum) (gs : List Grouping) :
    partitionCheck c gs = .ok ⟨⟩ ↔ coversExactly c gs := by
  induction c with
  | nil => simp [partitionCheck, coversExactly]
  | cons p rest ih =>
    obtain ⟨a, us⟩ := p
    rcases hcu : checkUnits gs a us with e | hv
    · have hred : partitionCheck ((a, us) :: rest) gs = .error e := by
        rw [partitionCheck, hcu]
      rw [hred]
      constructor
      · intro h
        simp at h
      · intro h
        exfalso
        have hok : checkUnits gs a us = .ok ⟨⟩ :=
          (checkUnits_ok_iff gs a us).2 (fun u hu => h (a, us) (List.mem_cons_self _ _) u hu)
        rw [hok] at hcu
        simp at hcu
    · have hred : partitionCheck ((a, us) :: rest) gs = partitionCheck rest gs := by
        rw [partitionCheck, hcu]
      rw [hred, ih]
      unfold coversExactly
      simp only [List.mem_cons]
      constructor
      · intro h q hq u hu
        rcases hq with rfl | hq
        · exact (checkUnits_ok_iff gs a us).1 (by rw [hcu]) u hu
        · exact h q hq u hu
      · intro h q hq u hu
        exact h q (Or.inr hq) u hu

lemma partitionCheck_error (c : Continuum) (gs : List Grouping)
    (e : SetPartitionErr) (h : partitionCheck c gs = .error e) :
    (∃ a u, e = .missing a u ∧ (∃ us, (a, us) ∈ c ∧ u ∈ us) ∧ refCount gs a u = 0) ∨
      (∃ a u, e = .duplicate a u ∧ (∃ us, (a, us) ∈ c ∧ u ∈ us) ∧ 1 < refCount gs a u) := by
  induction c with
  | nil => simp [partitionCheck] at h
  | cons p rest ih =>
    obtain ⟨a, us⟩ := p
    rcases hcu : checkUnits gs a us with e' | hv
    · have hred : partitionCheck ((a, us) :: rest) gs = .error e' := by
        rw [partitionCheck, hcu]
      rw [hred] at h
      injection h with h
      subst h
      rcases checkUnits_error gs a us e' hcu with ⟨u, hu, he, hc⟩ | ⟨u, hu, he, hc⟩
      · exact Or.inl ⟨a, u, he, ⟨us, List.mem_cons_self _ _, hu⟩, hc⟩
      · exact Or.inr ⟨a, u, he, ⟨us, List.mem_cons_self _ _, hu⟩, hc⟩
    · have hred : partitionCheck ((a, us) :: rest) gs = partitionCheck rest gs := by
        rw [partitionCheck, hcu]
      rw [hred] at h
      rcases ih h with ⟨b, v, he, ⟨vs, hvs, hv⟩, hc⟩ | ⟨b, v, he, ⟨vs, hvs, hv⟩, hc⟩
      · exact Or.inl ⟨b, v, he, ⟨vs, List.mem_cons_of_mem _ hvs, hv⟩, hc⟩
      · exact Or.inr ⟨b, v, he, ⟨vs, List.mem_cons_of_mem _ hvs, hv⟩, hc⟩

/-- C3: the `Alignement` constructor's set-partition test succeeds exactly when
every (annotator, unit) pair of the continuum is referenced by exactly one
grouping; a `missing` error names a continuum pair referenced by zero
groupings, a `duplicate` error names one referenced more than once, and any
pair referenced zero times forces a failure. -/
theorem c3_partition_check (c : Continuum) (gs : List Grouping) :
    (partitionCheck c gs = .ok ⟨⟩ ↔ coversExactly c gs) ∧
    (∀ a u, partitionCheck c gs = .error (.missing a u) →
      (∃ us, (a, us) ∈ c ∧ u ∈ us) ∧ refCount gs a u = 0) ∧
    (∀ a u, partitionCheck c gs = .error (.duplicate a u) →
      (∃ us, (a, us) ∈ c ∧ u ∈ us) ∧ 1 < refCount gs a u) := by
  refine ⟨partitionCheck_ok_iff c gs, ?_, ?_⟩
  · intro a u h
    rcases partitionCheck_error c gs _ h with ⟨b, v, he, hp, hc⟩ | ⟨b, v, he, _, _⟩
    · obtain ⟨rfl, rfl⟩ : b = a ∧ v = u := by
        injection he with h1 h2
        exact ⟨h1.symm, h2.symm⟩
      exact ⟨hp, hc⟩
    · cases he
  · intro a u h
    rcases partitionCheck_error c gs _ h with ⟨b, v, he, _, _⟩ | ⟨b, v, he, hp, hc⟩
    · cases he
    · obtain ⟨rfl, rfl⟩ : b = a ∧ v = u := by
        injection he with h1 h2
        exact ⟨h1.symm, h2.symm⟩
      exact ⟨hp, hc⟩

/-- C4: on a validly constructed, non-empty `Alignement`, `disorder` returns
the sum of the disorders of the groupings divided by their number. -/
theorem c4_alignement_disorder (c : Continuum) (d : Dissim) (gs : List Grouping)
    (hok : partitionCheck c gs = .ok ⟨⟩) (hne : gs ≠ []) :
    alignementDisorder d gs = some (sumDisorder d gs / (gs.length : ℚ)) := by
  rw [alignementDisorder, if_neg (by simpa using hne)]
  rfl

/-- C10: over a timeline with no (annotator, unit) pairs, an empty collection
of groupings passes the construction-time partition check vacuously, yet
`Alignement.disorder` divides by `num_alignements = 0` and fails (raises
`ZeroDivisionError`) instead of returning a value. -/
theorem c10_empty_alignement (c : Continuum) (d : Dissim)
    (hempty : ∀ p ∈ c, p.2 = []) :
    partitionCheck c [] = .ok ⟨⟩ ∧ alignementDisorder d [] = none := by
  constructor
  · refine (partitionCheck_ok_iff c []).2 ?_
    intro p hp u hu
    rw [hempty p hp] at hu
    cases hu
  · rfl

/-!  Membership in the Cartesian product of slot domains. -/

lemma mem_prodCons {xs : List Slot} {ts : List Grouping} {t : Grouping} :
    t ∈ prodCons xs ts ↔ ∃ x ∈ xs, ∃ t' ∈ ts, t = x :: t' := by
  induction xs with
  | nil => simp [prodCons]
  | cons x rest ih =>
    simp only [prodCons, List.mem_append, List.mem_map, ih, List.mem_cons]
    constructor
    · rintro (⟨t', ht', rfl⟩ | ⟨y, hy, t', ht', rfl⟩)
      · exact ⟨x, Or.inl rfl, t', ht', rfl⟩
      · exact ⟨y, Or.inr hy, t', ht', rfl⟩
    · rintro ⟨y, hy | hy, t', ht', rfl⟩
      · subst hy
        exact Or.inl ⟨t', ht', rfl⟩
      · exact Or.inr ⟨y, hy, t', ht', rfl⟩

lemma mem_listProd {L : List (List Slot)} {t : Grouping} :
    t ∈ listProd L ↔ List.Forall₂ (fun s xs => s ∈ xs) t L := by
  induction L generalizing t with
  | nil =>
    simp only [listProd, List.mem_singleton]
    constructor
    · rintro rfl
      exact List.Forall₂.nil
    · intro h
      cases h
      rfl
  | cons xs rest ih =>
    simp only [listProd, mem_prodCons]
    constructor
    · rintro ⟨x, hx, t', ht', rfl⟩
      exact List.Forall₂.cons hx (ih.1 ht')
    · intro h
      cases h with
      | cons hx ht' => exact ⟨_, hx, _, ih.2 ht', rfl⟩

lemma mem_candidates {c : Continuum} {g : Grouping} :
    g ∈ candidates c ↔ List.Forall₂ (fun s p => s ∈ slotDomain p) g c := by
  rw [candidates, mem_listProd]
  exact List.forall₂_map_right_iff

lemma mem_slotDomain {p : ℕ × List ℕ} {s : Slot} :
    s ∈ slotDomain p ↔ ((∃ u ∈ p.2, s = (p.1, some u)) ∨ s = (p.1, none)) := by
  simp only [slotDomain, List.mem_append, List.mem_map, List.mem_singleton]
  constructor
  · rintro (⟨u, hu, rfl⟩ | rfl)
    · exact Or.inl ⟨u, hu, rfl⟩
    · exact Or.inr rfl
  · rintro (⟨u, hu, rfl⟩ | rfl)
    · exact Or.inl ⟨u, hu, rfl⟩
    · exact Or.inr rfl

lemma fst_of_mem_slotDomain {p : ℕ × List ℕ} {s : Slot} (h : s ∈ slotDomain p) :
    s.1 = p.1 := by
  rcases mem_slotDomain.1 h with ⟨u, _, rfl⟩ | rfl <;> rfl

lemma forall₂_map_fst {g : Grouping} {c : Continuum}
    (h : List.Forall₂ (fun s p => s ∈ slotDomain p) g c) :
    g.map Prod.fst = c.map Prod.fst := by
  induction h with
  | nil => rfl
  | cons hs _ ih =>
    simp only [List.map_cons, ih, fst_of_mem_slotDomain hs]

lemma candidates_map_fst {c : Continuum} {g : Grouping} (h : g ∈ candidates c) :
    g.map Prod.fst = c.map Prod.fst :=
  forall₂_map_fst (mem_candidates.1 h)

lemma candidates_length {c : Continuum} {g : Grouping} (h : g ∈ candidates c) :
    g.length = c.length :=
  (mem_candidates.1 h).length_eq

lemma forall₂_slot_valid {g : Grouping} {c : Continuum}
    (h : List.Forall₂ (fun s p => s ∈ slotDomain p) g c)
    {a u : ℕ} (hmem : (a, some u) ∈ g) : ∃ p ∈ c, p.1 = a ∧ u ∈ p.2 := by
  induction h with
  | nil => cases hmem
  | cons hs hrest ih =>
    rcases List.mem_cons.1 hmem with heq | hmem'
    · rcases mem_slotDomain.1 hs with ⟨v, hv, hsv⟩ | hsv
      · rw [← heq] at hsv
        injection hsv with h1 h2
        injection h2 with h2
        exact ⟨_, List.mem_cons_self _ _, h1.symm, by rw [← h2] at hv; exact hv⟩
      · rw [← heq] at hsv
        injection hsv with h1 h2
        cases h2
    · obtain ⟨p, hp, hpa, hpu⟩ := ih hmem'
      exact ⟨p, List.mem_cons_of_mem _ hp, hpa, hpu⟩

lemma candidates_slot_valid {c : Continuum} {g : Grouping} (h : g ∈ candidates c)
    {a u : ℕ} (hmem : (a, some u) ∈ g) : ∃ p ∈ c, p.1 = a ∧ u ∈ p.2 :=
  forall₂_slot_valid (mem_candidates.1 h) hmem

/-!  Singleton groupings and the splitting transformation used to prove the
optimality of the ILP selection over arbitrary alignements. -/

/-- The (annotator, unit) pairs referenced by a grouping, in slot order. -/
def unitsOf (g : Grouping) : List (ℕ × ℕ) :=
  g.filterMap (fun s => s.2.map (fun u => (s.1, u)))

/-- The canonical candidate placing unit `u` of annotator `a` alone, gaps
everywhere else. -/
def singletonG (c : Continuum) (a u : ℕ) : Grouping :=
  c.map (fun p => (p.1, if p.1 = a then some u else none))

/-- Replace every grouping that the pruning would have discarded by the
singleton candidates of its units, and drop all-gap groupings. -/
def transform (c : Continuum) (d : Dissim) : List Grouping → List Grouping
  | [] => []
  | g :: rest =>
    (if disorder d g < (c.length : ℚ) * d.delta_empty then
      (if unitsOf g = [] then [] else [g])
    else (unitsOf g).map (fun q => singletonG c q.1 q.2)) ++ transform c d rest

lemma mem_unitsOf {g : Grouping} {a u : ℕ} :
    (a, u) ∈ unitsOf g ↔ (a, some u) ∈ g := by
  unfold unitsOf
  rw [List.mem_filterMap]
  constructor
  · rintro ⟨⟨b, ov⟩, hmem, hv⟩
    rcases ov with _ | v
    · cases hv
    · simp only [Option.map_some', Option.some.injEq, Prod.mk.injEq] at hv
      obtain ⟨rfl, rfl⟩ := hv
      exact hmem
  · intro h
    exact ⟨(a, some u), h, rfl⟩

/-- Occurrences of one slot value in a grouping. -/
def countSlot (g : Grouping) (s : Slot) : ℕ :=
  g.countP (fun x => decide (x = s))

/-- Occurrences of one (annotator, unit) pair in a list of pairs. -/
def countPair (l : List (ℕ × ℕ)) (q : ℕ × ℕ) : ℕ :=
  l.countP (fun x => decide (x = q))

lemma countP_le_one_of_nodup {α : Type} [DecidableEq α] {l : List α}
    (h : l.Nodup) (a : α) : l.countP (fun x => decide (x = a)) ≤ 1 := by
  induction l with
  | nil => simp
  | cons x rest ih =>
    rw [List.countP_cons]
    rcases List.nodup_cons.1 h with ⟨hx, hrest⟩
    by_cases hxa : x = a
    · have hz : rest.countP (fun y => decide (y = a)) = 0 :=
        List.countP_eq_zero.2 (by
          intro y hy
          simp only [decide_eq_true_eq]
          rintro rfl
          exact hx (hxa ▸ hy))
      simp [hz, hxa]
    · simp only [hxa, decide_False, if_neg]
      simpa using ih hrest

lemma countPair_unitsOf (g : Grouping) (a u : ℕ) :
    countPair (unitsOf g) (a, u) = countSlot g (a, some u) := by
  induction g with
  | nil => rfl
  | cons s rest ih =>
    obtain ⟨b, ov⟩ := s
    rcases ov with _ | v
    · show countPair (unitsOf rest) (a, u) = countSlot ((b, none) :: rest) (a, some u)
      rw [ih]
      unfold countSlot
      rw [List.countP_cons]
      simp
    · rw [show unitsOf ((b, some v) :: rest) = (b, v) :: unitsOf rest from rfl]
      rw [countPair, countSlot, List.countP_cons, List.countP_cons]
      rw [show (unitsOf rest).countP (fun x => decide (x = (a, u))) =
        countPair (unitsOf rest) (a, u) from rfl]
      rw [show rest.countP (fun x => decide (x = (a, some u))) =
        countSlot rest (a, some u) from rfl]
      rw [ih]
      have hiff : ((b, v) = (a, u)) ↔ ((b, some v) = ((a, some u) : Slot)) := by
        constructor
        · intro h
          injection h with h1 h2
          subst h1; subst h2; rfl
        · intro h
          injection h with h1 h2
          injection h2 with h2
          subst h1; subst h2; rfl
      by_cases hbv : (b, v) = (a, u)
      · rw [if_pos (decide_eq_true hbv), if_pos (decide_eq_true (hiff.1 hbv))]
      · rw [if_neg (by simpa using hbv), if_neg (by simpa using fun h => hbv (hiff.2 h))]

lemma nodup_of_candidates {c : Continuum} {g : Grouping}
    (hg : g ∈ candidates c) (hnd : (c.map Prod.fst).Nodup) : g.Nodup := by
  have h1 : (g.map Prod.fst).Nodup := by
    rw [candidates_map_fst hg]
    exact hnd
  exact h1.of_map

lemma countSlot_le_one_of_candidates {c : Continuum} {g : Grouping}
    (hg : g ∈ candidates c) (hnd : (c.map Prod.fst).Nodup) (s : Slot) :
    countSlot g s ≤ 1 :=
  countP_le_one_of_nodup (nodup_of_candidates hg hnd) s

lemma countSlot_pos_of_mem {g : Grouping} {s : Slot} (h : s ∈ g) :
    1 ≤ countSlot g s := by
  unfold countSlot
  have hpos : 0 < g.countP (fun x => decide (x = s)) :=
    List.countP_pos_iff.2 ⟨s, h, by simp⟩
  omega

lemma countSlot_eq_zero_of_not_mem {g : Grouping} {s : Slot} (h : s ∉ g) :
    countSlot g s = 0 :=
  List.countP_eq_zero.2 (by
    intro x hx
    simp only [decide_eq_true_eq]
    rintro rfl
    exact h hx)

lemma mem_singletonG {c : Continuum} {a u b v : ℕ} :
    (b, some v) ∈ singletonG c a u ↔ b = a ∧ v = u ∧ a ∈ c.map Prod.fst := by
  unfold singletonG
  rw [List.mem_map]
  constructor
  · rintro ⟨p, hp, hpv⟩
    by_cases hpa : p.1 = a
    · rw [if_pos hpa] at hpv
      injection hpv with h1 h2
      injection h2 with h2
      exact ⟨by rw [← h1, hpa], h2.symm, by
        rw [← hpa]
        exact List.mem_map_of_mem Prod.fst hp⟩
    · rw [if_neg hpa] at hpv
      injection hpv with h1 h2
      cases h2
  · rintro ⟨rfl, rfl, hmem⟩
    obtain ⟨p, hp, hpa⟩ := List.mem_map.1 hmem
    exact ⟨p, hp, by rw [hpa, if_pos rfl]⟩

lemma singletonG_gap_forall₂ (a u : ℕ) (rest : Continuum)
    (hanot : a ∉ rest.map Prod.fst) :
    List.Forall₂ (fun s p => s ∈ slotDomain p)
      (rest.map (fun p => (p.1, if p.1 = a then some u else none))) rest := by
  induction rest with
  | nil => exact List.Forall₂.nil
  | cons r rrest ih =>
    rw [List.map_cons] at hanot
    rw [List.map_cons]
    refine List.Forall₂.cons ?_ (ih (fun h => hanot (List.mem_cons_of_mem _ h)))
    have hra : ¬ r.1 = a := fun h => hanot (List.mem_cons.2 (Or.inl h.symm))
    show (r.1, if r.1 = a then some u else none) ∈ slotDomain r
    rw [if_neg hra]
    exact mem_slotDomain.2 (Or.inr rfl)

lemma singletonG_mem_candidates {c : Continuum} {a u : ℕ}
    (hnd : (c.map Prod.fst).Nodup) {p : ℕ × List ℕ}
    (hp : p ∈ c) (hpa : p.1 = a) (hu : u ∈ p.2) :
    singletonG c a u ∈ candidates c := by
  rw [mem_candidates]
  unfold singletonG
  induction c with
  | nil => cases hp
  | cons q rest ih =>
    rw [List.map_cons] at hnd ⊢
    rcases List.mem_cons.1 hp with rfl | hp'
    · refine List.Forall₂.cons ?_ ?_
      · show (p.1, if p.1 = a then some u else none) ∈ slotDomain p
        rw [if_pos hpa]
        exact mem_slotDomain.2 (Or.inl ⟨u, hu, rfl⟩)
      · refine singletonG_gap_forall₂ a u rest ?_
        rw [← hpa]
        exact (List.nodup_cons.1 hnd).1
    · refine List.Forall₂.cons ?_ (ih (List.nodup_cons.1 hnd).2 hp')
      show (q.1, if q.1 = a then some u else none) ∈ slotDomain q
      have hqa : ¬ q.1 = a := by
        intro h
        have : a ∈ rest.map Prod.fst := by
          rw [← hpa]
          exact List.mem_map_of_mem Prod.fst hp'
        rw [h] at hnd
        exact (List.nodup_cons.1 hnd).1 this
      rw [if_neg hqa]
      exact mem_slotDomain.2 (Or.inr rfl)

/-!  The transformation preserves the reference counts of the exact-cover
constraint and does not increase the summed disorder. -/

lemma refCount_singletons {c : Continuum} {g : Grouping}
    (hg : g ∈ candidates c) (hnd : (c.map Prod.fst).Nodup) (a u : ℕ) :
    refCount ((unitsOf g).map (fun q => singletonG c q.1 q.2)) a u =
      if (a, some u) ∈ g then 1 else 0 := by
  unfold refCount
  rw [List.countP_map]
  have hcong : ∀ q ∈ unitsOf g,
      decide ((a, some u) ∈ singletonG c q.1 q.2) = true ↔
        decide (q = (a, u)) = true := by
    intro q hq
    have hq' : (q.1, some q.2) ∈ g := mem_unitsOf.1 (by
      obtain ⟨b, v⟩ := q
      exact hq)
    obtain ⟨p, hp, hpa, _⟩ := candidates_slot_valid hg hq'
    have hamem : q.1 ∈ c.map Prod.fst := by
      rw [← hpa]
      exact List.mem_map_of_mem Prod.fst hp
    simp only [decide_eq_true_eq, mem_singletonG]
    constructor
    · rintro ⟨rfl, rfl, _⟩
      rfl
    · rintro rfl
      exact ⟨rfl, rfl, hamem⟩
  rw [show ((fun g => decide ((a, some u) ∈ g)) ∘ fun q : ℕ × ℕ => singletonG c q.1 q.2) =
    (fun q : ℕ × ℕ => decide ((a, some u) ∈ singletonG c q.1 q.2)) from rfl]
  rw [List.countP_congr hcong]
  rw [show (unitsOf g).countP (fun q => decide (q = (a, u))) =
    countPair (unitsOf g) (a, u) from rfl, countPair_unitsOf]
  by_cases hm : (a, some u) ∈ g
  · have h1 := countSlot_pos_of_mem hm
    have h2 := countSlot_le_one_of_candidates hg hnd (a, some u)
    rw [if_pos hm]
    omega
  · rw [if_neg hm]
    exact countSlot_eq_zero_of_not_mem hm

lemma refCount_cons (gs : List Grouping) (g : Grouping) (a u : ℕ) :
    refCount (g :: gs) a u = (if (a, some u) ∈ g then 1 else 0) + refCount gs a u := by
  unfold refCount
  rw [List.countP_cons]
  by_cases hm : (a, some u) ∈ g
  · rw [if_pos hm, if_pos (decide_eq_true hm)]
    omega
  · rw [if_neg hm, if_neg (by simpa using hm)]
    omega

lemma refCount_append (gs₁ gs₂ : List Grouping) (a u : ℕ) :
    refCount (gs₁ ++ gs₂) a u = refCount gs₁ a u + refCount gs₂ a u :=
  List.countP_append _ gs₁ gs₂

lemma refCount_transform {c : Continuum} {d : Dissim} {AL : List Grouping}
    (hAL : ∀ g ∈ AL, g ∈ candidates c) (hnd : (c.map Prod.fst).Nodup) (a u : ℕ) :
    refCount (transform c d AL) a u = refCount AL a u := by
  induction AL with
  | nil => rfl
  | cons g rest ih =>
    have hg : g ∈ candidates c := hAL g (List.mem_cons_self _ _)
    have hrest : ∀ g' ∈ rest, g' ∈ candidates c :=
      fun g' hg' => hAL g' (List.mem_cons_of_mem _ hg')
    rw [transform, refCount_append, ih hrest, refCount_cons]
    congr 1
    by_cases hkeep : disorder d g < (c.length : ℚ) * d.delta_empty
    · rw [if_pos hkeep]
      by_cases hemp : unitsOf g = []
      · rw [if_pos hemp]
        have hnm : (a, some u) ∉ g := by
          intro hm
          have : (a, u) ∈ unitsOf g := mem_unitsOf.2 hm
          rw [hemp] at this
          cases this
        rw [if_neg hnm]
        rfl
      · rw [if_neg hemp, refCount_cons, show refCount [] a u = 0 from rfl]
        omega
    · rw [if_neg hkeep]
      exact refCount_singletons hg hnd a u

lemma sumDisorder_cons (d : Dissim) (g : Grouping) (gs : List Grouping) :
    sumDisorder d (g :: gs) = disorder d g + sumDisorder d gs := by
  unfold sumDisorder
  rw [List.map_cons, List.sum_cons]

lemma sumDisorder_append (d : Dissim) (gs₁ gs₂ : List Grouping) :
    sumDisorder d (gs₁ ++ gs₂) = sumDisorder d gs₁ + sumDisorder d gs₂ := by
  unfold sumDisorder
  rw [List.map_append, List.sum_append]

lemma length_unitsOf_le (g : Grouping) : (unitsOf g).length ≤ g.length :=
  List.length_filterMap_le _ g

lemma countP_isSome_singletonG {c : Continuum} (hnd : (c.map Prod.fst).Nodup)
    (a u : ℕ) : (singletonG c a u).countP (fun s => s.2.isSome) ≤ 1 := by
  unfold singletonG
  rw [List.countP_map]
  have hcong : ∀ p ∈ c,
      ((fun s : Slot => s.2.isSome) ∘ fun p => (p.1, if p.1 = a then some u else none)) p
        = true ↔ decide (p.1 = a) = true := by
    intro p _
    by_cases hpa : p.1 = a <;> simp [hpa]
  rw [List.countP_congr hcong]
  have : c.countP (fun p => decide (p.1 = a)) =
      (c.map Prod.fst).countP (fun b => decide (b = a)) := by
    rw [List.countP_map]
    rfl
  rw [this]
  exact countP_le_one_of_nodup hnd a

lemma disorder_singletonG {c : Continuum} {d : Dissim}
    (hnd : (c.map Prod.fst).Nodup) (hn : 2 ≤ c.length) (a u : ℕ) :
    disorder d (singletonG c a u) = d.delta_empty := by
  refine disorder_of_few_some d _ (countP_isSome_singletonG hnd a u) ?_
  rw [show (singletonG c a u).length = c.length from List.length_map c _]
  exact hn

lemma sumDisorder_transform_le {c : Continuum} {d : Dissim} {AL : List Grouping}
    (hAL : ∀ g ∈ AL, g ∈ candidates c) (hnd : (c.map Prod.fst).Nodup)
    (hn : 2 ≤ c.length) (hΔ : 0 ≤ d.delta_empty) (hdis : ∀ p q, 0 ≤ d.dis p q) :
    sumDisorder d (transform c d AL) ≤ sumDisorder d AL := by
  induction AL with
  | nil => simp [transform, sumDisorder]
  | cons g rest ih =>
    have hg : g ∈ candidates c := hAL g (List.mem_cons_self _ _)
    have hrest : ∀ g' ∈ rest, g' ∈ candidates c :=
      fun g' hg' => hAL g' (List.mem_cons_of_mem _ hg')
    rw [transform, sumDisorder_append, sumDisorder_cons]
    have htail := ih hrest
    have hhead : sumDisorder d
        (if disorder d g < (c.length : ℚ) * d.delta_empty then
          (if unitsOf g = [] then [] else [g])
        else (unitsOf g).map (fun q => singletonG c q.1 q.2)) ≤ disorder d g := by
      by_cases hkeep : disorder d g < (c.length : ℚ) * d.delta_empty
      · rw [if_pos hkeep]
        by_cases hemp : unitsOf g = []
        · rw [if_pos hemp]
          rw [show sumDisorder d ([] : List Grouping) = 0 from rfl]
          exact disorder_nonneg d hΔ hdis g
        · rw [if_neg hemp, sumDisorder_cons]
          rw [show sumDisorder d [] = 0 from rfl]
          rw [add_zero]
      · rw [if_neg hkeep]
        have heach : sumDisorder d ((unitsOf g).map (fun q => singletonG c q.1 q.2)) =
            ((unitsOf g).length : ℚ) * d.delta_empty := by
          unfold sumDisorder
          rw [List.map_map]
          rw [List.map_congr_left (fun q _ =>
            disorder_singletonG (c := c) (d := d) hnd hn q.1 q.2)]
          exact sum_map_const_rat _ _
        rw [heach]
        have hk : ((unitsOf g).length : ℚ) ≤ (c.length : ℚ) := by
          exact_mod_cast (length_unitsOf_le g).trans (le_of_eq (candidates_length hg))
        calc ((unitsOf g).length : ℚ) * d.delta_empty
            ≤ (c.length : ℚ) * d.delta_empty := mul_le_mul_of_nonneg_right hk hΔ
          _ ≤ disorder d g := le_of_not_lt hkeep
    linarith

/-!  The transformed alignement is a duplicate-free subset of the pruned
candidates, hence one of the selections the ILP ranges over. -/

lemma countP_self_pos {α : Type} [DecidableEq α] {l : List α} {x : α} (h : x ∈ l) :
    0 < l.countP (fun y => decide (y = x)) :=
  List.countP_pos_iff.2 ⟨x, h, by simp⟩

lemma countP_self_le_countP {α : Type} [DecidableEq α] (l : List α) (P : α → Bool)
    (x : α) (hx : P x = true) : l.countP (fun y => decide (y = x)) ≤ l.countP P := by
  apply List.countP_mono_left
  intro a _ ha
  simp only [decide_eq_true_eq] at ha
  rw [ha]
  exact hx

lemma nodup_of_countP_le_one {α : Type} [DecidableEq α] {l : List α}
    (h : ∀ x ∈ l, l.countP (fun y => decide (y = x)) ≤ 1) : l.Nodup := by
  induction l with
  | nil => exact List.nodup_nil
  | cons x rest ih =>
    rw [List.nodup_cons]
    constructor
    · intro hx
      have hcnt := h x (List.mem_cons_self _ _)
      rw [List.countP_cons] at hcnt
      have hrest : 0 < rest.countP (fun y => decide (y = x)) := countP_self_pos hx
      simp only [decide_True, if_pos] at hcnt
      omega
    · refine ih ?_
      intro y hy
      have hcnt := h y (List.mem_cons_of_mem _ hy)
      rw [List.countP_cons] at hcnt
      omega

lemma transform_subset_candidates {c : Continuum} {d : Dissim} {AL : List Grouping}
    (hAL : ∀ g ∈ AL, g ∈ candidates c) (hnd : (c.map Prod.fst).Nodup) :
    ∀ x ∈ transform c d AL, x ∈ candidates c := by
  induction AL with
  | nil => intro x hx; cases hx
  | cons g rest ih =>
    have hg : g ∈ candidates c := hAL g (List.mem_cons_self _ _)
    have hrest : ∀ g' ∈ rest, g' ∈ candidates c :=
      fun g' hg' => hAL g' (List.mem_cons_of_mem _ hg')
    intro x hx
    rw [transform, List.mem_append] at hx
    rcases hx with hx | hx
    · by_cases hkeep : disorder d g < (c.length : ℚ) * d.delta_empty
      · rw [if_pos hkeep] at hx
        by_cases hemp : unitsOf g = []
        · rw [if_pos hemp] at hx
          cases hx
        · rw [if_neg hemp] at hx
          rcases List.mem_singleton.1 hx with rfl
          exact hg
      · rw [if_neg hkeep] at hx
        obtain ⟨q, hq, rfl⟩ := List.mem_map.1 hx
        have hq' : (q.1, some q.2) ∈ g := mem_unitsOf.1 (by
          obtain ⟨b, v⟩ := q
          exact hq)
        obtain ⟨p, hp, hpa, hup⟩ := candidates_slot_valid hg hq'
        exact singletonG_mem_candidates hnd hp hpa hup
    · exact ih hrest x hx

lemma transform_has_unit {c : Continuum} {d : Dissim} {AL : List Grouping}
    (hAL : ∀ g ∈ AL, g ∈ candidates c) :
    ∀ x ∈ transform c d AL, ∃ a u, (a, some u) ∈ x := by
  induction AL with
  | nil => intro x hx; cases hx
  | cons g rest ih =>
    have hg : g ∈ candidates c := hAL g (List.mem_cons_self _ _)
    have hrest : ∀ g' ∈ rest, g' ∈ candidates c :=
      fun g' hg' => hAL g' (List.mem_cons_of_mem _ hg')
    intro x hx
    rw [transform, List.mem_append] at hx
    rcases hx with hx | hx
    · by_cases hkeep : disorder d g < (c.length : ℚ) * d.delta_empty
      · rw [if_pos hkeep] at hx
        by_cases hemp : unitsOf g = []
        · rw [if_pos hemp] at hx
          cases hx
        · rw [if_neg hemp] at hx
          rcases List.mem_singleton.1 hx with rfl
          obtain ⟨q, hq⟩ := List.exists_mem_of_ne_nil _ hemp
          obtain ⟨a, u⟩ := q
          exact ⟨a, u, mem_unitsOf.1 hq⟩
      · rw [if_neg hkeep] at hx
        obtain ⟨q, hq, rfl⟩ := List.mem_map.1 hx
        have hq' : (q.1, some q.2) ∈ g := mem_unitsOf.1 (by
          obtain ⟨b, v⟩ := q
          exact hq)
        obtain ⟨p, hp, hpa, _⟩ := candidates_slot_valid hg hq'
        refine ⟨q.1, q.2, mem_singletonG.2 ⟨rfl, rfl, ?_⟩⟩
        rw [← hpa]
        exact List.mem_map_of_mem Prod.fst hp
    · exact ih hrest x hx

lemma transform_nodup {c : Continuum} {d : Dissim} {AL : List Grouping}
    (hAL : ∀ g ∈ AL, g ∈ candidates c) (hnd : (c.map Prod.fst).Nodup)
    (hcover : coversExactly c AL) : (transform c d AL).Nodup := by
  refine nodup_of_countP_le_one ?_
  intro x hx
  by_contra hgt
  push_neg at hgt
  obtain ⟨a, u, hau⟩ := transform_has_unit hAL x hx
  have hxc : x ∈ candidates c := transform_subset_candidates hAL hnd x hx
  obtain ⟨p, hp, hpa, hup⟩ := candidates_slot_valid hxc hau
  have hle : (transform c d AL).countP (fun y => decide (y = x)) ≤
      refCount (transform c d AL) a u :=
    countP_self_le_countP _ _ x (decide_eq_true hau)
  rw [refCount_transform hAL hnd] at hle
  have hone : refCount AL a u = 1 := by
    have := hcover p hp u hup
    rw [hpa] at this
    exact this
  omega

lemma mem_selections {α : Type} {l t : List α} :
    t ∈ selections l ↔ t.Sublist l := by
  induction l generalizing t with
  | nil =>
    simp only [selections, List.mem_singleton]
    constructor
    · rintro rfl
      exact List.Sublist.refl []
    · intro h
      exact List.sublist_nil.1 h
  | cons x rest ih =>
    simp only [selections, List.mem_append, List.mem_map]
    constructor
    · rintro (⟨t', ht', rfl⟩ | ht)
      · exact (ih.1 ht').cons₂ x
      · exact (ih.1 ht).cons x
    · intro ht
      cases ht with
      | cons _ h => exact Or.inr (ih.2 h)
      | cons₂ _ h => exact Or.inl ⟨_, ih.2 h, rfl⟩

lemma foldl_min_spec {α : Type} (f : α → ℚ) (l : List α) (acc : α) :
    (l.foldl (fun b y => if f y < f b then y else b) acc = acc ∨
      l.foldl (fun b y => if f y < f b then y else b) acc ∈ l) ∧
    f (l.foldl (fun b y => if f y < f b then y else b) acc) ≤ f acc ∧
    ∀ y ∈ l, f (l.foldl (fun b y => if f y < f b then y else b) acc) ≤ f y := by
  induction l generalizing acc with
  | nil =>
    refine ⟨Or.inl rfl, le_refl _, ?_⟩
    intro y hy
    cases hy
  | cons x rest ih =>
    simp only [List.foldl_cons]
    obtain ⟨hmem, hle, hall⟩ := ih (if f x < f acc then x else acc)
    have hboth : f (if f x < f acc then x else acc) ≤ f acc ∧
        f (if f x < f acc then x else acc) ≤ f x := by
      by_cases h : f x < f acc
      · rw [if_pos h]
        exact ⟨le_of_lt h, le_refl _⟩
      · rw [if_neg h]
        exact ⟨le_refl _, le_of_not_lt h⟩
    refine ⟨?_, le_trans hle hboth.1, ?_⟩
    · rcases hmem with heq | hmem
      · rw [heq]
        by_cases h : f x < f acc
        · rw [if_pos h]
          exact Or.inr (List.mem_cons_self _ _)
        · rw [if_neg h]
          exact Or.inl rfl
      · exact Or.inr (List.mem_cons_of_mem _ hmem)
    · intro y hy
      rcases List.mem_cons.1 hy with rfl | hy
      · exact le_trans hle hboth.2
      · exact hall y hy

lemma pickMin_spec {α : Type} {f : α → ℚ} {l : List α} {m : α}
    (h : pickMin f l = some m) : m ∈ l ∧ ∀ y ∈ l, f m ≤ f y := by
  cases l with
  | nil => cases h
  | cons x rest =>
    rw [pickMin] at h
    injection h with h
    obtain ⟨hmem, hle, hall⟩ := foldl_min_spec f rest x
    rw [h] at hmem hle hall
    constructor
    · rcases hmem with heq | hmem
      · rw [heq]
        exact List.mem_cons_self _ _
      · exact List.mem_cons_of_mem _ hmem
    · intro y hy
      rcases List.mem_cons.1 hy with rfl | hy
      · exact hle
      · exact hall y hy

lemma coverB_iff {c : Continuum} {gs : List Grouping} :
    coverB c gs = true ↔ coversExactly c gs := by
  unfold coverB coversExactly
  simp [List.all_eq_true]

lemma transform_subset_pruned {c : Continuum} {d : Dissim} {AL : List Grouping}
    (hAL : ∀ g ∈ AL, g ∈ candidates c) (hnd : (c.map Prod.fst).Nodup)
    (hn : 2 ≤ c.length) (hΔpos : 0 < d.delta_empty) :
    ∀ x ∈ transform c d AL, x ∈ prunedCandidates c d := by
  intro x hx
  rw [prunedCandidates, List.mem_filter]
  refine ⟨transform_subset_candidates hAL hnd x hx, ?_⟩
  rw [decide_eq_true_eq]
  -- either x was kept (strictly under the bound) or x is a singleton
  revert hx
  induction AL with
  | nil => intro hx; cases hx
  | cons g rest ih =>
    have hg : g ∈ candidates c := hAL g (List.mem_cons_self _ _)
    have hrest : ∀ g' ∈ rest, g' ∈ candidates c :=
      fun g' hg' => hAL g' (List.mem_cons_of_mem _ hg')
    intro hx
    rw [transform, List.mem_append] at hx
    rcases hx with hx | hx
    · by_cases hkeep : disorder d g < (c.length : ℚ) * d.delta_empty
      · rw [if_pos hkeep] at hx
        by_cases hemp : unitsOf g = []
        · rw [if_pos hemp] at hx
          cases hx
        · rw [if_neg hemp] at hx
          rcases List.mem_singleton.1 hx with rfl
          exact hkeep
      · rw [if_neg hkeep] at hx
        obtain ⟨q, _, rfl⟩ := List.mem_map.1 hx
        rw [disorder_singletonG hnd hn q.1 q.2]
        have h1n : (1 : ℚ) < (c.length : ℚ) := by
          exact_mod_cast lt_of_lt_of_le one_lt_two (by exact_mod_cast hn)
        calc d.delta_empty = 1 * d.delta_empty := (one_mul _).symm
          _ < (c.length : ℚ) * d.delta_empty := mul_lt_mul_of_pos_right h1n hΔpos
    · exact ih hrest hx

/-- C1 (amended): the selection returned by `get_unitary_alignements_best`
minimizes the TOTAL of the unitary disorders (the ILP objective `d.T * x`),
not the mean that `BestAlignement.disorder` reports: whenever the solve
succeeds, its summed disorder is at most the summed disorder of every
alignement made of per-spec groupings (one slot per annotator, each slot a
unit of that annotator or a gap) that covers each (annotator, unit) pair of
the continuum exactly once.  Assumes distinct annotators, a non-negative gap
cost and a non-negative dissimilarity, as the spec's data model does. -/
theorem c1_best_selection_minimizes_total_disorder (c : Continuum) (d : Dissim)
    (sel AL : List Grouping)
    (hn : 2 ≤ c.length) (hnd : (c.map Prod.fst).Nodup)
    (hΔ : 0 ≤ d.delta_empty) (hdis : ∀ p q, 0 ≤ d.dis p q)
    (hsel : bestSelection? c d = some sel)
    (hAL : ∀ g ∈ AL, g ∈ candidates c) (hcover : coversExactly c AL) :
    sumDisorder d sel ≤ sumDisorder d AL := by
  obtain ⟨hselmem, hopt⟩ := pickMin_spec hsel
  rcases lt_or_eq_of_le hΔ with hΔpos | hΔ0
  · have hsub := transform_subset_pruned hAL hnd hn hΔpos
    have hndup := transform_nodup (d := d) hAL hnd hcover
    obtain ⟨S, hSperm, hSsub⟩ := hndup.subperm hsub
    have hSfeas : S ∈ feasibleCovers c d := by
      rw [feasibleCovers, List.mem_filter]
      refine ⟨mem_selections.2 hSsub, ?_⟩
      rw [coverB_iff]
      intro p hp u hu
      have h1 : refCount S p.1 u = refCount (transform c d AL) p.1 u :=
        hSperm.countP_eq _
      rw [h1, refCount_transform hAL hnd]
      exact hcover p hp u hu
    have h2 := hopt S hSfeas
    have h3 : sumDisorder d S = sumDisorder d (transform c d AL) :=
      (hSperm.map (disorder d)).sum_eq
    have h4 := sumDisorder_transform_le hAL hnd hn hΔ hdis
    linarith
  · have hpruned : prunedCandidates c d = [] := by
      rw [prunedCandidates, List.filter_eq_nil_iff]
      intro t _
      simp only [decide_eq_true_eq, not_lt]
      rw [← hΔ0, mul_zero]
      exact disorder_nonneg d hΔ hdis t
    rw [feasibleCovers, hpruned] at hselmem
    have hsel' : sel ∈ List.filter (coverB c) [[]] := by
      simpa [selections] using hselmem
    have hsel_nil : sel = [] := by
      rcases List.mem_filter.1 hsel' with ⟨hmem, _⟩
      simpa using hmem
    rw [hsel_nil, show sumDisorder d ([] : List Grouping) = 0 from rfl]
    exact sumDisorder_nonneg d hΔ hdis AL

/-- C5: candidate pruning keeps exactly the tuples of the Cartesian product
whose disorder lies strictly below `len(continuum) * DELTA_EMPTY`: every
candidate at or above the bound is discarded, every candidate strictly below
it is kept. -/
theorem c5_pruning_membership (c : Continuum) (d : Dissim) (t : Grouping) :
    t ∈ prunedCandidates c d ↔
      (t ∈ candidates c ∧ disorder d t < (c.length : ℚ) * d.delta_empty) := by
  rw [prunedCandidates, List.mem_filter, decide_eq_true_eq]

instance : DecidableEq (Except SetPartitionErr Unit) := fun x y =>
  match x, y with
  | .ok u₁, .ok u₂ => isTrue rfl
  | .error e₁, .error e₂ =>
    if h : e₁ = e₂ then isTrue (congrArg Except.error h)
    else isFalse (fun hc => h (by injection hc))
  | .ok _, .error _ => isFalse (fun hc => Except.noConfusion hc)
  | .error _, .ok _ => isFalse (fun hc => Except.noConfusion hc)

/-!  Concrete instances.  The rational arithmetic of Batteries is
`@[irreducible]` by default, which only hides the definitions from unfolding;
they are restored to their ordinary reducibility locally so that `decide` can
evaluate the embedded pipeline on the concrete inputs below. -/

attribute [local semireducible] Rat.add Rat.mul Rat.inv Rat.sub

/-- Continuum of the C1 counterexample: two annotators, one unit each. -/
def cA1 : Continuum := [(0, [10]), (1, [20])]

/-- Dissimilarity of the C1 counterexample: gap cost 1, distance 3/2. -/
def dA1 : Dissim := ⟨1, fun _ _ => 3 / 2⟩

/-- The alignement the ILP selects on `cA1`: the single pairing grouping. -/
def bestA1 : List Grouping := [[(0, some 10), (1, some 20)]]

/-- An alternative valid alignement on `cA1`: each unit alone with a gap. -/
def altA1 : List Grouping := [[(0, some 10), (1, none)], [(0, none), (1, some 20)]]

/-- C1 refuted as stated: on `cA1`/`dA1` the solve succeeds and
`BestAlignement.disorder` reports 3/2, yet `altA1` is another Alignement over
the same timeline (it passes the partition test, its groupings are per-spec
groupings) whose disorder is 1 < 3/2.  The ILP minimizes the summed disorder
(3/2 < 2), not the reported mean. -/
theorem c1_counterexample :
    bestDisorder? cA1 dA1 = some (3 / 2) ∧
    partitionCheck cA1 altA1 = .ok ⟨⟩ ∧
    altA1.all (fun g => decide (g ∈ candidates cA1)) = true ∧
    alignementDisorder dA1 altA1 = some 1 ∧
    ¬ ((3 / 2 : ℚ) ≤ 1) := by
  refine ⟨by decide, by decide, by decide, by decide, by decide⟩

/-- Witness instantiating the amended C1 on the concrete instance. -/
theorem c1_best_selection_minimizes_total_disorder_witness :
    sumDisorder dA1 bestA1 ≤ sumDisorder dA1 altA1 :=
  c1_best_selection_minimizes_total_disorder cA1 dA1 bestA1 altA1
    (by decide) (by decide) (by decide)
    (fun p q => by
      show (0 : ℚ) ≤ 3 / 2
      decide)
    (by decide) (by decide) (by decide)

/-- Dissimilarity for the C2 witness. -/
def dW2 : Dissim := ⟨1, fun _ _ => 2⟩

/-- Grouping for the C2 witness. -/
def tW2 : Grouping := [(0, some 4), (1, some 5)]

/-- Witness instantiating C2 on a two-annotator grouping. -/
theorem c2_disorder_is_mean_pairwise_cost_witness :
    2 ≤ tW2.length ∧ disorder dW2 tW2 = specDisorder dW2 tW2 :=
  ⟨by decide, c2_disorder_is_mean_pairwise_cost dW2 tW2 (by decide)⟩

/-- Continuum for the C3 witness. -/
def cW3 : Continuum := [(0, [1, 2]), (1, [3])]

/-- A collection of groupings forming an exact partition of `cW3`. -/
def gsOk3 : List Grouping := [[(0, some 1), (1, some 3)], [(0, some 2), (1, none)]]

/-- A collection leaving the pair (0, 2) of `cW3` unreferenced. -/
def gsMiss3 : List Grouping := [[(0, some 1), (1, some 3)]]

/-- A collection referencing the pair (0, 1) of `cW3` twice. -/
def gsDup3 : List Grouping :=
  [[(0, some 1), (1, some 3)], [(0, some 1), (1, none)], [(0, some 2), (1, none)]]

/-- Witness instantiating the three conjuncts of C3 on concrete collections. -/
theorem c3_partition_check_witness :
    partitionCheck cW3 gsOk3 = .ok ⟨⟩ ∧
    refCount gsMiss3 0 2 = 0 ∧
    1 < refCount gsDup3 0 1 := by
  refine ⟨?_, ?_, ?_⟩
  · exact (c3_partition_check cW3 gsOk3).1.mpr (by decide)
  · exact ((c3_partition_check cW3 gsMiss3).2.1 0 2 (by decide)).2
  · exact ((c3_partition_check cW3 gsDup3).2.2 0 1 (by decide)).2

/-- Continuum for the C4 witness. -/
def cW4 : Continuum := [(0, [1]), (1, [2])]

/-- Dissimilarity for the C4 witness. -/
def dW4 : Dissim := ⟨1, fun _ _ => 1 / 2⟩

/-- Valid alignement for the C4 witness. -/
def gsW4 : List Grouping := [[(0, some 1), (1, some 2)]]

/-- Witness instantiating C4 on a validly constructed alignement. -/
theorem c4_alignement_disorder_witness :
    partitionCheck cW4 gsW4 = .ok ⟨⟩ ∧ gsW4 ≠ [] ∧
    alignementDisorder dW4 gsW4 = some (sumDisorder dW4 gsW4 / (gsW4.length : ℚ)) :=
  ⟨by decide, by decide, c4_alignement_disorder cW4 dW4 gsW4 (by decide) (by decide)⟩

/-- Dissimilarity for the C6 witness. -/
def dW6 : Dissim := ⟨3 / 2, fun _ _ => 7⟩

/-- All-gap grouping for the C6 witness. -/
def tW6 : Grouping := [(0, none), (1, none), (2, none)]

/-- Witness instantiating C6 on a three-annotator all-gap grouping. -/
theorem c6_all_gap_disorder_witness :
    (∀ s ∈ tW6, s.2 = none) ∧ 2 ≤ tW6.length ∧ disorder dW6 tW6 = dW6.delta_empty :=
  ⟨by decide, by decide, c6_all_gap_disorder dW6 tW6 (by decide) (by decide)⟩

/-- Symmetric dissimilarity for the C7 witness. -/
def dW7 : Dissim := ⟨1, fun _ _ => 5⟩

/-- Grouping for the C7 witness. -/
def tW7 : Grouping := [(0, some 1), (1, some 2)]

/-- The same grouping with its slots reordered. -/
def tW7r : Grouping := [(1, some 2), (0, some 1)]

/-- Witness instantiating C7 on a reordered two-annotator grouping. -/
theorem c7_disorder_perm_invariant_witness :
    tW7.Perm tW7r ∧ 2 ≤ tW7.length ∧ disorder dW7 tW7 = disorder dW7 tW7r :=
  ⟨by decide, by decide,
    c7_disorder_perm_invariant dW7 tW7 tW7r (by decide) (fun p q => rfl) (by decide)⟩

/-- Continuum for C8: two annotators, one unit each. -/
def cW8 : Continuum := [(0, [10]), (1, [20])]

/-- Dissimilarity for C8: `DELTA_EMPTY = 0` prunes away every candidate. -/
def dW8 : Dissim := ⟨0, fun _ _ => 1⟩

/-- C8: a concrete input (gap cost 0) on which the timeline has units but the
pruning leaves no candidate, so no exact cover exists among the pruned
candidates and the solve is infeasible: the model returns `none`, while the
source reads `x.value` (then `None`) without any explicit infeasibility
handling. -/
theorem c8_infeasible_instance :
    numUnits cW8 = 2 ∧ prunedCandidates cW8 dW8 = [] ∧
    feasibleCovers cW8 dW8 = [] ∧ bestSelection? cW8 dW8 = none := by
  refine ⟨by decide, by decide, by decide, by decide⟩

/-- Single-annotator grouping for C9. -/
def tW9 : Grouping := [(0, some 5)]

/-- Dissimilarity for C9. -/
def dW9 : Dissim := ⟨1, fun _ _ => 1⟩

/-- C9: on a single-annotator grouping the code reaches the division with
denominator `binom(1, 2) = 0` unguarded — there is no rejection of the
degenerate input; the embedding's total division then yields the junk value 0
(NumPy float semantics silently yield NaN). -/
theorem c9_single_annotator_division_by_zero :
    numCouples tW9 = 0 ∧
    disorder dW9 tW9 = pairSum dW9 tW9 / (numCouples tW9 : ℚ) ∧
    (numCouples tW9 : ℚ) = 0 ∧
    disorder dW9 tW9 = 0 := by
  refine ⟨by decide, rfl, by decide, by decide⟩

/-- Continuum for the C10 witness: annotators with no units. -/
def cW10 : Continuum := [(0, []), (1, [])]

/-- Dissimilarity for the C10 witness. -/
def dW10 : Dissim := ⟨1, fun _ _ => 1⟩

/-- Witness instantiating C10 on a two-annotator, zero-unit timeline. -/
theorem c10_empty_alignement_witness :
    partitionCheck cW10 [] = .ok ⟨⟩ ∧ alignementDisorder dW10 [] = none :=
  c10_empty_alignement cW10 dW10 (by decide)

end PyGamma
